import Mathlib

/- A verification development for meep's `src/susceptibility.cpp`
   (dispersive-material polarization update for the Lorentzian
   susceptibility model).

   The C++ source is shallowly embedded below.  Machine floating-point
   numbers (`realnum`/`double`) are modelled as exact rationals `ℚ`;
   dense grid arrays (raw pointers with unchecked offset arithmetic) are
   modelled as total functions `Int → ℚ`.  The geometry helpers declared
   in `meep.hpp` / `meep_internals.hpp` (the `component` and `direction`
   enums, `direction_component`, `component_direction`, `cycle_direction`,
   `grid_volume` with its stride/owned-point interface and the
   `LOOP_OVER_VOL_OWNED` macro, the `pi` constant) are not part of the
   given source file; those are modelled from the spec, as marked on the
   individual declarations. -/

namespace meep

/-- Modelled from the spec (the `direction` enum of `meep.hpp` is not in
the given source): one of the fixed spatial axes; the grid is taken to be
three-dimensional. -/
inductive direction : Type
  | X : direction
  | Y : direction
  | Z : direction
deriving DecidableEq

/-- Modelled from the spec: the kind of a field component — electric,
magnetic, or one of the remaining field quantities (`D` fields,
dielectric, ...) that are neither. -/
inductive field_kind : Type
  | electricK : field_kind
  | magneticK : field_kind
  | otherK : field_kind
deriving DecidableEq

/-- Modelled from the spec (the `component` enum of `meep.hpp` is not in
the given source): a field component is a kind together with its axis. -/
structure component : Type where
  kind : field_kind
  axis : direction
deriving DecidableEq

/-- Modelled from the spec: `is_electric` of `meep.hpp`. -/
def is_electric (c : component) : Bool :=
  match c.kind with
  | field_kind.electricK => true
  | _ => false

/-- Modelled from the spec: `is_magnetic` of `meep.hpp`. -/
def is_magnetic (c : component) : Bool :=
  match c.kind with
  | field_kind.magneticK => true
  | _ => false

/-- Modelled from the spec: `component_direction` of `meep.hpp` — the
component's own axis. -/
def component_direction (c : component) : direction := c.axis

/-- Modelled from the spec: `direction_component` of `meep.hpp` — the
component obtained by re-pointing `c`'s axis to `d`. -/
def direction_component (c : component) (d : direction) : component :=
  { kind := c.kind, axis := d }

/-- Modelled from the spec: the cyclic successor on directions. -/
def next_direction : direction → direction
  | direction.X => direction.Y
  | direction.Y => direction.Z
  | direction.Z => direction.X

/-- Modelled from the spec: `cycle_direction` of `meep.hpp` — the `n`-th
cyclic successor of `d` (the grid dimensionality is fixed at 3). -/
def cycle_direction (d : direction) : Nat → direction
  | 0 => d
  | n + 1 => next_direction (cycle_direction d n)

/-- Modelled from the spec: the list of all directions, in the order
`FOR_DIRECTIONS` iterates them. -/
def directions : List direction := [direction.X, direction.Y, direction.Z]

/-- Modelled from the spec: the canonical `FOR_COMPONENTS` iteration
order over all field components. -/
def componentList : List component :=
  [⟨field_kind.electricK, direction.X⟩, ⟨field_kind.electricK, direction.Y⟩,
   ⟨field_kind.electricK, direction.Z⟩,
   ⟨field_kind.magneticK, direction.X⟩, ⟨field_kind.magneticK, direction.Y⟩,
   ⟨field_kind.magneticK, direction.Z⟩,
   ⟨field_kind.otherK, direction.X⟩, ⟨field_kind.otherK, direction.Y⟩,
   ⟨field_kind.otherK, direction.Z⟩]

/-- Modelled from the spec: `FOR_COMPONENTS(c) DOCMP2` — every component
paired with each of the two real/imaginary copies (`cmp ∈ {0,1}`,
modelled as `Bool`), components outermost. -/
def pairList : List (component × Bool) :=
  componentList.flatMap (fun c => [(c, false), (c, true)])

/-- A dense scalar grid array (`realnum *` with unchecked pointer
arithmetic), modelled as a total function from integer offsets. -/
abbrev Arr : Type := Int → ℚ

/-- A per-component, per-copy family of optional arrays, the shape of the
`realnum *X[NUM_FIELD_COMPONENTS][2]` parameters (`NULL` = `none`). -/
abbrev FieldSet : Type := component → Bool → Option Arr

/-- Modelled from the spec: the `grid_volume` interface used by the
kernel — the owned-point count `ntot`, per-direction memory strides, and
the list of owned grid-point offsets `LOOP_OVER_VOL_OWNED` iterates for
each component. -/
structure grid_volume : Type where
  ntot : Nat
  stride : direction → Int
  owned : component → List Int

/-- Well-formedness of a grid volume: every owned offset lies inside the
`ntot`-scalar block a component occupies (this is what the C++ layout
guarantees and what the backing-store cursor layout relies on). -/
def ownedBounds (gv : grid_volume) : Prop :=
  ∀ c : component, ∀ i ∈ gv.owned c, 0 ≤ i ∧ i < (gv.ntot : Int)

/-- The susceptibility record: the base-class data of `susceptibility`
(coupling tensor `sigma` with its triviality flags, `id`, array length
`ntot`, chain link `next`, the latter modelled as an optional abstract
reference) together with the `lorentzian_susceptibility` oscillator
parameters `omega_0`, `gamma`, `no_omega_0_denominator`. -/
structure susceptibility : Type where
  id : Int
  ntot : Nat
  next : Option Nat
  sigma : component → direction → Option Arr
  trivial_sigma : component → direction → Bool
  omega_0 : ℚ
  gamma : ℚ
  no_omega_0_denominator : Bool

/-- Modelled from the spec: the `pi` constant of `meep.hpp`, at the exact
value of the IEEE-754 double nearest π (the specific rational is
irrelevant to every claim; it only has to be the same constant on both
sides). -/
def pi : ℚ := (884279719003555 : ℚ) / 281474976710656

/-- `susceptibility::needs_P` (susceptibility.cpp lines 61–67). -/
def needs_P (sus : susceptibility) (c : component) (W : FieldSet) : Bool :=
  if !is_electric c && !is_magnetic c then false
  else
    directions.any (fun d =>
      !sus.trivial_sigma c d && (W (direction_component c d) false).isSome)

/-- `susceptibility::needs_W_notowned` (susceptibility.cpp lines 73–81). -/
def needs_W_notowned (sus : susceptibility) (c : component) (W : FieldSet) : Bool :=
  directions.any (fun d =>
    if d = component_direction c then false
    else
      needs_P sus (direction_component c d) W &&
        !sus.trivial_sigma (direction_component c d) (component_direction c))

/-- `lorentzian_susceptibility::num_internal_data` (susceptibility.cpp
lines 85–91): one `gv.ntot()` block per allocated `P[c][cmp]`. -/
def num_internal_data (P : FieldSet) (gv : grid_volume) : Nat :=
  pairList.foldl (fun num pr => if (P pr.1 pr.2).isSome then num + gv.ntot else num) 0

/-- The `OFFDIAG(u,g,sx,s)` macro (susceptibility.cpp lines 96–97):
`0.25 * ((g[i]+g[i-sx])*u[i] + (g[i+s]+g[(i+s)-sx])*u[i+s])`. -/
def OFFDIAG (u g : Arr) (sx s : Int) (i : Int) : ℚ :=
  0.25 * ((g i + g (i - sx)) * u i + (g (i + s) + g ((i + s) - sx)) * u (i + s))

/-- `omega2pi = 2*pi*omega_0` (susceptibility.cpp line 104). -/
def omega2pi (sus : susceptibility) : ℚ := 2 * pi * sus.omega_0

/-- `g2pi = gamma*2*pi` (susceptibility.cpp line 104). -/
def g2pi (sus : susceptibility) : ℚ := sus.gamma * 2 * pi

/-- `omega0dtsqr = omega2pi * omega2pi * dt * dt` (line 105). -/
def omega0dtsqr (sus : susceptibility) (dt : ℚ) : ℚ :=
  omega2pi sus * omega2pi sus * dt * dt

/-- `gamma1inv = 1 / (1 + g2pi*dt/2)` (line 106). -/
def gamma1inv (sus : susceptibility) (dt : ℚ) : ℚ :=
  1 / (1 + g2pi sus * dt / 2)

/-- `gamma1 = (1 - g2pi*dt/2)` (line 106). -/
def gamma1 (sus : susceptibility) (dt : ℚ) : ℚ :=
  1 - g2pi sus * dt / 2

/-- `omega0dtsqr_denom = no_omega_0_denominator ? 0 : omega0dtsqr` (line 107). -/
def omega0dtsqr_denom (sus : susceptibility) (dt : ℚ) : ℚ :=
  if sus.no_omega_0_denominator then 0 else omega0dtsqr sus dt

/-- One iteration of the per-point loop body shared by the three update
branches (susceptibility.cpp lines 139–147 / 150–157 / 160–166): reads
`pcur = p[i]`, writes
`p[i] = g1inv*(pcur*(2-aden) - g1*pp[i] + a*drive(i))` and `pp[i] = pcur`,
where the `pp` view is the backing store at cursor offset `off`. -/
def lorentzPointStep (g1inv g1 aden a : ℚ) (drive : Arr) (off : Nat)
    (st : Arr × Arr) (i : Int) : Arr × Arr :=
  (Function.update st.1 i
      (g1inv * (st.1 i * (2 - aden) - g1 * st.2 ((off : Int) + i) + a * drive i)),
   Function.update st.2 ((off : Int) + i) (st.1 i))

/-- The pairing `s1 = w1 ? sigma[c][d1] : NULL` (lines 123–124, 128–129):
an off-diagonal coupling is available only when both the field array and
the coupling array are non-null; the branch code then uses both. -/
def pairOpt (wo so : Option Arr) : Option (Arr × Arr) :=
  match wo, so with
  | some w1, some s1 => some (w1, s1)
  | _, _ => none

/-- The state threaded through `update_P`: the polarization arrays, the
backing-store block, and the cursor offset `P_prev - P_internal_data`. -/
structure UpdState : Type where
  P : FieldSet
  pid : Arr
  off : Nat

/-- The body of `update_P` for one active component-copy pair whose
driving field `w` and diagonal coupling `s` are both non-null
(susceptibility.cpp lines 117–167): computes the sign-adjusted strides,
the two off-diagonal candidates, performs the `SWAP` making candidate 1
the non-null one if possible, selects the 3-term / 2-term / isotropic
branch, runs the owned-point loop, and advances the cursor. -/
def active_update (sus : susceptibility) (W : FieldSet) (dt : ℚ)
    (gv : grid_volume) (st : UpdState) (c : component) (cmp : Bool)
    (p w s : Arr) : UpdState :=
  let msign : Int := if is_magnetic c then -1 else 1
  let is := gv.stride (component_direction c) * msign
  let d1 := cycle_direction (component_direction c) 1
  let is1 := gv.stride d1 * msign
  let ws1 := pairOpt (W (direction_component c d1) cmp) (sus.sigma c d1)
  let d2 := cycle_direction (component_direction c) 2
  let is2 := gv.stride d2 * msign
  let ws2 := pairOpt (W (direction_component c d2) cmp) (sus.sigma c d2)
  let sel := if ws2.isSome && !ws1.isSome
             then ((is2, ws2), (is1, ws1)) else ((is1, ws1), (is2, ws2))
  let drive : Arr :=
    match sel.1.2, sel.2.2 with
    | some q1, some q2 => fun i =>
        s i * w i + OFFDIAG q1.2 q1.1 sel.1.1 is i + OFFDIAG q2.2 q2.1 sel.2.1 is i
    | some q1, none => fun i =>
        s i * w i + OFFDIAG q1.2 q1.1 sel.1.1 is i
    | none, _ => fun i => s i * w i
  let res := (gv.owned c).foldl
      (lorentzPointStep (gamma1inv sus dt) (gamma1 sus dt)
        (omega0dtsqr_denom sus dt) (omega0dtsqr sus dt) drive st.off)
      (p, st.pid)
  { P := fun c' cmp' => if c' = c ∧ cmp' = cmp then some res.1 else st.P c' cmp',
    pid := res.2,
    off := st.off + gv.ntot }

/-- One `FOR_COMPONENTS(c) DOCMP2` iteration of `update_P`
(susceptibility.cpp lines 112–170): nothing happens for an unallocated
pair; for an allocated pair whose `w` or `s` is null only the cursor
advances; otherwise the active update runs and the cursor advances. -/
def update_pair (sus : susceptibility) (W : FieldSet) (dt : ℚ)
    (gv : grid_volume) (st : UpdState) (pr : component × Bool) : UpdState :=
  match st.P pr.1 pr.2, W pr.1 pr.2, sus.sigma pr.1 (component_direction pr.1) with
  | some p, some w, some s => active_update sus W dt gv st pr.1 pr.2 p w s
  | some _, _, _ => { st with off := st.off + gv.ntot }
  | none, _, _ => st

/-- `lorentzian_susceptibility::update_P` (susceptibility.cpp lines
99–171).  `W_prev` is accepted and ignored, mirroring `(void) W_prev`.
The returned state carries the updated polarization arrays, the updated
backing store, and the final cursor offset. -/
def update_P (sus : susceptibility) (P W W_prev : FieldSet) (dt : ℚ)
    (gv : grid_volume) (pid : Arr) : UpdState :=
  pairList.foldl (update_pair sus W dt gv) { P := P, pid := pid, off := 0 }

/-- The number of allocated component-copy pairs in `P` among a list of
pairs (the count `num_internal_data` effectively multiplies by
`gv.ntot()`). -/
def countActive (P : FieldSet) : List (component × Bool) → Nat
  | [] => 0
  | pr :: t => (if (P pr.1 pr.2).isSome then 1 else 0) + countActive P t

/-- The backing-store cursor offset at which `update_P` processes the
pair `pr`: one `gv.ntot()` block for every allocated pair that precedes
`pr` in the canonical iteration order. -/
def pairOffset (P : FieldSet) (gv : grid_volume) (pr : component × Bool) : Nat :=
  gv.ntot * countActive P (pairList.take (pairList.indexOf pr))

/-- A sequence of `update_P` calls on the same chunk: each call supplies
its own current fields, previous fields and timestep, and the
polarization arrays and backing store are threaded through. -/
def run_calls (sus : susceptibility) (gv : grid_volume)
    (calls : List (FieldSet × FieldSet × ℚ)) (P : FieldSet) (pid : Arr) :
    FieldSet × Arr :=
  calls.foldl (fun st call =>
    ((update_P sus st.1 call.1 call.2.1 call.2.2 gv st.2).P,
     (update_P sus st.1 call.1 call.2.1 call.2.2 gv st.2).pid)) (P, pid)

/-- The off-diagonal average exactly as the spec's words state it: the
coupling `σ_off` is averaged across the own-axis stride and the field
`w_off` is sampled at `i` and `i + stride_off`.  Stated only to be
compared against the code's `OFFDIAG`. -/
def offdiag_spec_formula (σoff woff : Arr) (stride_off stride_own : Int)
    (i : Int) : ℚ :=
  0.25 * ((σoff i + σoff (i - stride_own)) * woff i
    + (σoff (i + stride_off) + σoff (i + stride_off - stride_own))
        * woff (i + stride_off))

/- Explicit storage model for `susceptibility::clone` (susceptibility.cpp
lines 35–49).  The C++ coupling arrays are heap blocks reached through
pointers; to state the no-aliasing guarantee, arrays live in an explicit
heap of numbered cells and the tensor holds cell numbers. -/

/-- A heap of array cells: cell contents, plus the next never-yet-used
cell number (allocation returns fresh cells). -/
structure heap : Type where
  store : Nat → Arr
  nextFree : Nat

/-- The susceptibility record with pointer-valued coupling-tensor
entries (`realnum *sigma[c][d]`, `NULL` = `none`), as used by `clone`. -/
structure susceptibilityH : Type where
  id : Int
  ntot : Nat
  next : Option Nat
  sigmaPtr : component → direction → Option Nat
  trivial_sigma : component → direction → Bool
  omega_0 : ℚ
  gamma : ℚ
  no_omega_0_denominator : Bool

/-- Modelled from the spec: the `FOR_COMPONENTS(c) FOR_DIRECTIONS(d)`
iteration order of `clone`. -/
def cdList : List (component × direction) :=
  componentList.flatMap (fun c => [(c, direction.X), (c, direction.Y), (c, direction.Z)])

/-- The contents of a freshly `new`-ed block of `n` scalars after
`memcpy` of `n` scalars from `a` (offsets outside the block modelled
as 0). -/
def copyN (a : Arr) (n : Nat) : Arr :=
  fun j => if 0 ≤ j ∧ j < (n : Int) then a j else 0

/-- `susceptibility::clone` (susceptibility.cpp lines 35–49): copies all
scalar fields (copy constructor plus the explicit `ntot`/`id` copies),
resets the chain link to null, and for every non-null coupling entry
allocates a fresh cell and `memcpy`s `ntot` scalars into it; null entries
stay null.  Every allocated cell number is fresh (at or above the heap's
`nextFree`) and distinct per entry. -/
def cloneH (s : susceptibilityH) (h : heap) : susceptibilityH × heap :=
  ({ s with
      next := none,
      sigmaPtr := fun c d =>
        match s.sigmaPtr c d with
        | some _ => some (h.nextFree + cdList.indexOf (c, d))
        | none => none },
   { store := cdList.foldl (fun st cd =>
       match s.sigmaPtr cd.1 cd.2 with
       | some ptr => Function.update st (h.nextFree + cdList.indexOf cd)
           (copyN (h.store ptr) s.ntot)
       | none => st) h.store,
     nextFree := h.nextFree + cdList.length })

/- Concrete inputs used by the counterexamples and witnesses below. -/

/-- The all-zeros array. -/
def zeroArr : Arr := fun _ => 0

/-- The all-ones array. -/
def oneArr : Arr := fun _ => 1

/-- The x-directed electric component. -/
def cEX : component := ⟨field_kind.electricK, direction.X⟩

/-- A 1-owned-point grid volume with strides 1, 2, 3. -/
def cgv : grid_volume :=
  { ntot := 1,
    stride := fun d =>
      match d with
      | direction.X => 1
      | direction.Y => 2
      | direction.Z => 3,
    owned := fun _ => [0] }

/-- A field array that is 4 at offset -2 and 0 elsewhere. -/
def c2w1 : Arr := fun j => if j = -2 then 4 else 0

/-- A susceptibility with unit resonance response (`2π·f0 = 1`), no
damping, diagonal coupling 0 and off-diagonal coupling 1 in the cyclic-1
direction for `cEX`. -/
def c2sus : susceptibility :=
  { id := 0, ntot := 1, next := none,
    sigma := fun c d =>
      match c, d with
      | ⟨field_kind.electricK, direction.X⟩, direction.X => some zeroArr
      | ⟨field_kind.electricK, direction.X⟩, direction.Y => some oneArr
      | _, _ => none,
    trivial_sigma := fun c d =>
      match c, d with
      | ⟨field_kind.electricK, direction.X⟩, direction.X => false
      | ⟨field_kind.electricK, direction.X⟩, direction.Y => false
      | _, _ => true,
    omega_0 := 1 / (2 * pi), gamma := 0, no_omega_0_denominator := false }

/-- Fields for the off-diagonal counterexample: zero own field, `c2w1`
in the cyclic-1 direction. -/
def c2W : FieldSet := fun c cmp =>
  match c, cmp with
  | ⟨field_kind.electricK, direction.X⟩, false => some zeroArr
  | ⟨field_kind.electricK, direction.Y⟩, false => some c2w1
  | _, _ => none

/-- Polarization arrays with a single active pair `(cEX, 0)`, all zero. -/
def c2P : FieldSet := fun c cmp =>
  match c, cmp with
  | ⟨field_kind.electricK, direction.X⟩, false => some zeroArr
  | _, _ => none

/-- A susceptibility with zero oscillator parameters and an isotropic
unit diagonal coupling for `cEX`. -/
def witSus : susceptibility :=
  { id := 7, ntot := 1, next := none,
    sigma := fun c d =>
      match c, d with
      | ⟨field_kind.electricK, direction.X⟩, direction.X => some oneArr
      | _, _ => none,
    trivial_sigma := fun c d =>
      match c, d with
      | ⟨field_kind.electricK, direction.X⟩, direction.X => false
      | _, _ => true,
    omega_0 := 0, gamma := 0, no_omega_0_denominator := false }

/-- Polarization arrays with a single active all-ones pair `(cEX, 0)`. -/
def witP : FieldSet := fun c cmp =>
  match c, cmp with
  | ⟨field_kind.electricK, direction.X⟩, false => some oneArr
  | _, _ => none

/-- Fields with a single all-ones array at `(cEX, 0)`. -/
def witW : FieldSet := witP

/-- Polarization arrays with both copies of `cEX` active. -/
def wit5P : FieldSet := fun c cmp =>
  match c, cmp with
  | ⟨field_kind.electricK, direction.X⟩, _ => some oneArr
  | _, _ => none

/-- A field array that is 8 at offset 1 and 0 elsewhere. -/
def c7w2 : Arr := fun j => if j = 1 then 8 else 0

/-- A susceptibility with unit resonance response, unit diagonal coupling
and unit off-diagonal coupling only in the cyclic-2 direction for `cEX`
(exercising the swap in the 2-term branch). -/
def wit7sus : susceptibility :=
  { id := 1, ntot := 1, next := none,
    sigma := fun c d =>
      match c, d with
      | ⟨field_kind.electricK, direction.X⟩, direction.X => some oneArr
      | ⟨field_kind.electricK, direction.X⟩, direction.Z => some oneArr
      | _, _ => none,
    trivial_sigma := fun _ _ => false,
    omega_0 := 1 / (2 * pi), gamma := 0, no_omega_0_denominator := false }

/-- Fields for the swap witness: own field all ones, no cyclic-1 field,
`c7w2` in the cyclic-2 direction. -/
def wit7W : FieldSet := fun c cmp =>
  match c, cmp with
  | ⟨field_kind.electricK, direction.X⟩, false => some oneArr
  | ⟨field_kind.electricK, direction.Z⟩, false => some c7w2
  | _, _ => none

/-- All-absent fields (used by the silent-skip counterexample). -/
def noW : FieldSet := fun _ _ => none

/-- A susceptibility whose coupling tensor is entirely absent. -/
def c9sus : susceptibility :=
  { id := 9, ntot := 1, next := none,
    sigma := fun _ _ => none,
    trivial_sigma := fun _ _ => true,
    omega_0 := 3, gamma := 5, no_omega_0_denominator := false }

/-- Polarization arrays with a single active all-zero pair `(cEX, 0)`. -/
def c9P : FieldSet := fun c cmp =>
  match c, cmp with
  | ⟨field_kind.electricK, direction.X⟩, false => some zeroArr
  | _, _ => none

/-- A heap with one used cell holding the constant-5 array. -/
def h6 : heap := { store := fun _ => (fun _ => 5), nextFree := 1 }

/-- A pointer-based susceptibility whose only coupling entry points at
cell 0. -/
def s6 : susceptibilityH :=
  { id := 42, ntot := 3, next := some 13,
    sigmaPtr := fun c d =>
      match c, d with
      | ⟨field_kind.electricK, direction.X⟩, direction.X => some 0
      | _, _ => none,
    trivial_sigma := fun _ _ => true,
    omega_0 := 1, gamma := 2, no_omega_0_denominator := true }

lemma mem_directions (d : direction) : d ∈ directions := by
  cases d <;> simp [directions]

lemma countActive_nil (P : FieldSet) : countActive P [] = 0 := rfl

lemma countActive_cons (P : FieldSet) (pr : component × Bool)
    (t : List (component × Bool)) :
    countActive P (pr :: t)
      = (if (P pr.1 pr.2).isSome then 1 else 0) + countActive P t := rfl

lemma countActive_congr (P₁ P₂ : FieldSet) :
    ∀ l : List (component × Bool),
      (∀ pr ∈ l, P₁ pr.1 pr.2 = P₂ pr.1 pr.2) →
      countActive P₁ l = countActive P₂ l
  | [], _ => rfl
  | pr :: t, h => by
      have ht : ∀ pr' ∈ t, P₁ pr'.1 pr'.2 = P₂ pr'.1 pr'.2 :=
        fun pr' hpr' => h pr' (List.mem_cons_of_mem _ hpr')
      have hpr := h pr (List.mem_cons_self _ _)
      simp [countActive_cons, hpr, countActive_congr P₁ P₂ t ht]

lemma num_internal_foldl (P : FieldSet) (gv : grid_volume) :
    ∀ (l : List (component × Bool)) (n : Nat),
      l.foldl (fun num pr => if (P pr.1 pr.2).isSome then num + gv.ntot else num) n
        = n + gv.ntot * countActive P l
  | [], n => by simp [countActive_nil]
  | pr :: t, n => by
      by_cases h : (P pr.1 pr.2).isSome <;>
        simp [countActive_cons, h, num_internal_foldl P gv t,
          Nat.mul_add, Nat.mul_one] <;> omega

lemma num_internal_data_eq (P : FieldSet) (gv : grid_volume) :
    num_internal_data P gv = gv.ntot * countActive P pairList := by
  simpa [num_internal_data] using num_internal_foldl P gv pairList 0

lemma pointLoop_frame_p (g1inv g1 aden a : ℚ) (drive : Arr) (off : Nat) :
    ∀ (L : List Int) (st : Arr × Arr) (i : Int), i ∉ L →
      ((L.foldl (lorentzPointStep g1inv g1 aden a drive off) st).1 i = st.1 i)
  | [], _, _, _ => rfl
  | j :: t, st, i, h => by
      have hij : i ≠ j := fun he => h (he ▸ List.mem_cons_self j t)
      have ht : i ∉ t := fun hm => h (List.mem_cons_of_mem _ hm)
      rw [List.foldl_cons,
        pointLoop_frame_p g1inv g1 aden a drive off t _ i ht]
      simp [lorentzPointStep, Function.update_noteq hij]

lemma pointLoop_frame_pid (g1inv g1 aden a : ℚ) (drive : Arr) (off : Nat) :
    ∀ (L : List Int) (st : Arr × Arr) (j : Int), (∀ i ∈ L, (off : Int) + i ≠ j) →
      ((L.foldl (lorentzPointStep g1inv g1 aden a drive off) st).2 j = st.2 j)
  | [], _, _, _ => rfl
  | i₀ :: t, st, j, h => by
      have h₀ : (off : Int) + i₀ ≠ j := h i₀ (List.mem_cons_self i₀ t)
      have ht : ∀ i ∈ t, (off : Int) + i ≠ j :=
        fun i hi => h i (List.mem_cons_of_mem _ hi)
      rw [List.foldl_cons,
        pointLoop_frame_pid g1inv g1 aden a drive off t _ j ht]
      simp [lorentzPointStep, Function.update_noteq (Ne.symm h₀)]

lemma pointLoop_mem (g1inv g1 aden a : ℚ) (drive : Arr) (off : Nat) :
    ∀ (L : List Int), L.Nodup → ∀ (st : Arr × Arr) (i : Int), i ∈ L →
      ((L.foldl (lorentzPointStep g1inv g1 aden a drive off) st).1 i
          = g1inv * (st.1 i * (2 - aden) - g1 * st.2 ((off : Int) + i)
              + a * drive i)
        ∧ (L.foldl (lorentzPointStep g1inv g1 aden a drive off) st).2
            ((off : Int) + i) = st.1 i)
  | [], _, _, i, hi => absurd hi (List.not_mem_nil i)
  | j :: t, hnd, st, i, hi => by
      have hj : j ∉ t := (List.nodup_cons.1 hnd).1
      have ht : t.Nodup := (List.nodup_cons.1 hnd).2
      rw [List.foldl_cons]
      rcases List.mem_cons.1 hi with he | hit
      · subst he
        constructor
        · rw [pointLoop_frame_p g1inv g1 aden a drive off t _ i hj]
          simp [lorentzPointStep]
        · have : ∀ i' ∈ t, (off : Int) + i' ≠ (off : Int) + i :=
            fun i' hi' hc => hj (by
              have : i' = i := by omega
              exact this ▸ hi')
          rw [pointLoop_frame_pid g1inv g1 aden a drive off t _ _ this]
          simp [lorentzPointStep]
      · have hij : i ≠ j := fun he => hj (he ▸ hit)
        have main := pointLoop_mem g1inv g1 aden a drive off t ht
          (lorentzPointStep g1inv g1 aden a drive off st j) i hit
        have h1 : (lorentzPointStep g1inv g1 aden a drive off st j).1 i
            = st.1 i := by
          simp [lorentzPointStep, Function.update_noteq hij]
        have h2 : (lorentzPointStep g1inv g1 aden a drive off st j).2
            ((off : Int) + i) = st.2 ((off : Int) + i) := by
          have : (off : Int) + i ≠ (off : Int) + j := by
            intro hc; exact hij (by omega)
          simp [lorentzPointStep, Function.update_noteq this]
        rw [h1, h2] at main
        exact main

lemma active_update_off (sus : susceptibility) (W : FieldSet) (dt : ℚ)
    (gv : grid_volume) (st : UpdState) (c : component) (cmp : Bool)
    (p w s : Arr) :
    (active_update sus W dt gv st c cmp p w s).off = st.off + gv.ntot := by
  simp [active_update]

lemma active_update_P_ne (sus : susceptibility) (W : FieldSet) (dt : ℚ)
    (gv : grid_volume) (st : UpdState) (c : component) (cmp : Bool)
    (p w s : Arr) (c' : component) (cmp' : Bool)
    (h : ¬(c' = c ∧ cmp' = cmp)) :
    (active_update sus W dt gv st c cmp p w s).P c' cmp' = st.P c' cmp' := by
  simp only [active_update]
  exact if_neg h

lemma update_pair_P_ne (sus : susceptibility) (W : FieldSet) (dt : ℚ)
    (gv : grid_volume) (st : UpdState) (pr : component × Bool)
    (c' : component) (cmp' : Bool) (h : (c', cmp') ≠ pr) :
    (update_pair sus W dt gv st pr).P c' cmp' = st.P c' cmp' := by
  obtain ⟨c, cmp⟩ := pr
  simp only [update_pair]
  cases hP : st.P c cmp with
  | none => rfl
  | some p =>
    cases hW : W c cmp with
    | none => rfl
    | some w =>
      cases hS : sus.sigma c (component_direction c) with
      | none => rfl
      | some s =>
        exact active_update_P_ne sus W dt gv st c cmp p w s c' cmp'
          (fun hc => h (by simp [hc.1, hc.2]))

lemma update_pair_off (sus : susceptibility) (W : FieldSet) (dt : ℚ)
    (gv : grid_volume) (st : UpdState) (pr : component × Bool) :
    (update_pair sus W dt gv st pr).off
      = st.off + (if (st.P pr.1 pr.2).isSome then gv.ntot else 0) := by
  obtain ⟨c, cmp⟩ := pr
  simp only [update_pair]
  cases hP : st.P c cmp with
  | none => simp
  | some p =>
    cases hW : W c cmp with
    | none => simp
    | some w =>
      cases hS : sus.sigma c (component_direction c) with
      | none => simp
      | some s => simp [active_update_off]

lemma update_pair_pid_frame (sus : susceptibility) (W : FieldSet) (dt : ℚ)
    (gv : grid_volume) (hb : ownedBounds gv) (st : UpdState)
    (pr : component × Bool) (j : Int)
    (h : j < (st.off : Int) ∨ (st.off : Int) + (gv.ntot : Int) ≤ j) :
    (update_pair sus W dt gv st pr).pid j = st.pid j := by
  obtain ⟨c, cmp⟩ := pr
  simp only [update_pair]
  cases hP : st.P c cmp with
  | none => rfl
  | some p =>
    cases hW : W c cmp with
    | none => rfl
    | some w =>
      cases hS : sus.sigma c (component_direction c) with
      | none => rfl
      | some s =>
        simp only [active_update]
        apply pointLoop_frame_pid
        intro i hi hc
        rcases hb c i hi with ⟨h0, hlt⟩
        omega

lemma update_pair_P_none (sus : susceptibility) (W : FieldSet) (dt : ℚ)
    (gv : grid_volume) (st : UpdState) (pr : component × Bool)
    (h : st.P pr.1 pr.2 = none) : update_pair sus W dt gv st pr = st := by
  obtain ⟨c, cmp⟩ := pr
  simp only [update_pair]
  simp only at h
  rw [h]

lemma foldl_P_ne (sus : susceptibility) (W : FieldSet) (dt : ℚ)
    (gv : grid_volume) :
    ∀ (l : List (component × Bool)) (st : UpdState) (c' : component)
      (cmp' : Bool), (c', cmp') ∉ l →
      (l.foldl (update_pair sus W dt gv) st).P c' cmp' = st.P c' cmp'
  | [], _, _, _, _ => rfl
  | pr :: t, st, c', cmp', h => by
      have hpr : (c', cmp') ≠ pr := fun he => h (he ▸ List.mem_cons_self pr t)
      have ht : (c', cmp') ∉ t := fun hm => h (List.mem_cons_of_mem _ hm)
      rw [List.foldl_cons, foldl_P_ne sus W dt gv t _ c' cmp' ht,
        update_pair_P_ne sus W dt gv st pr c' cmp' hpr]

lemma foldl_off_acc (sus : susceptibility) (W : FieldSet) (dt : ℚ)
    (gv : grid_volume) :
    ∀ (l : List (component × Bool)), l.Nodup → ∀ st : UpdState,
      (l.foldl (update_pair sus W dt gv) st).off
        = st.off + gv.ntot * countActive st.P l
  | [], _, st => by simp [countActive_nil]
  | pr :: t, hnd, st => by
      have hprt : pr ∉ t := (List.nodup_cons.1 hnd).1
      have ht : t.Nodup := (List.nodup_cons.1 hnd).2
      rw [List.foldl_cons, foldl_off_acc sus W dt gv t ht]
      have hcnt : countActive (update_pair sus W dt gv st pr).P t
          = countActive st.P t := by
        apply countActive_congr
        intro pr' hpr'
        exact update_pair_P_ne sus W dt gv st pr pr'.1 pr'.2
          (fun he => hprt (by rw [← he]; exact hpr'))
      rw [hcnt, update_pair_off, countActive_cons]
      by_cases h : (st.P pr.1 pr.2).isSome <;> simp [h, Nat.mul_add] <;> omega

lemma update_pair_off_le (sus : susceptibility) (W : FieldSet) (dt : ℚ)
    (gv : grid_volume) (st : UpdState) (pr : component × Bool) :
    st.off ≤ (update_pair sus W dt gv st pr).off := by
  rw [update_pair_off]; omega

lemma foldl_off_mono (sus : susceptibility) (W : FieldSet) (dt : ℚ)
    (gv : grid_volume) :
    ∀ (l : List (component × Bool)) (st : UpdState),
      st.off ≤ (l.foldl (update_pair sus W dt gv) st).off
  | [], _ => Nat.le_refl _
  | pr :: t, st => by
      rw [List.foldl_cons]
      exact Nat.le_trans (update_pair_off_le sus W dt gv st pr)
        (foldl_off_mono sus W dt gv t _)

lemma foldl_pid_low (sus : susceptibility) (W : FieldSet) (dt : ℚ)
    (gv : grid_volume) (hb : ownedBounds gv) :
    ∀ (l : List (component × Bool)) (st : UpdState) (j : Int),
      j < (st.off : Int) →
      (l.foldl (update_pair sus W dt gv) st).pid j = st.pid j
  | [], _, _, _ => rfl
  | pr :: t, st, j, h => by
      have h' : j < (((update_pair sus W dt gv st pr).off : Nat) : Int) := by
        have := update_pair_off_le sus W dt gv st pr
        omega
      rw [List.foldl_cons, foldl_pid_low sus W dt gv hb t _ j h',
        update_pair_pid_frame sus W dt gv hb st pr j (Or.inl h)]

lemma foldl_pid_high (sus : susceptibility) (W : FieldSet) (dt : ℚ)
    (gv : grid_volume) (hb : ownedBounds gv) :
    ∀ (l : List (component × Bool)) (st : UpdState) (j : Int),
      ((l.foldl (update_pair sus W dt gv) st).off : Int) ≤ j →
      (l.foldl (update_pair sus W dt gv) st).pid j = st.pid j
  | [], _, _, _ => rfl
  | pr :: t, st, j, h => by
      rw [List.foldl_cons] at h ⊢
      have hoff : ((update_pair sus W dt gv st pr).off : Int) ≤ j := by
        have := foldl_off_mono sus W dt gv t (update_pair sus W dt gv st pr)
        omega
      rw [foldl_pid_high sus W dt gv hb t _ j h]
      rw [update_pair_off] at hoff
      by_cases hac : (st.P pr.1 pr.2).isSome
      · apply update_pair_pid_frame sus W dt gv hb st pr j
        rw [if_pos hac] at hoff; right; push_cast at hoff ⊢; omega
      · rw [update_pair_P_none sus W dt gv st pr
          (Option.not_isSome_iff_eq_none.1 (by simpa using hac))]

lemma pairList_nodup : pairList.Nodup := by decide

lemma mem_pairList : ∀ pr : component × Bool, pr ∈ pairList := by
  rintro ⟨⟨k, a⟩, b⟩
  cases k <;> cases a <;> cases b <;> decide

lemma pairList_decomp : ∀ pr ∈ pairList,
    pairList = pairList.take (pairList.indexOf pr)
      ++ pr :: pairList.drop (pairList.indexOf pr + 1) := by decide

lemma pairList_not_mem_parts : ∀ pr ∈ pairList,
    pr ∉ pairList.take (pairList.indexOf pr)
      ∧ pr ∉ pairList.drop (pairList.indexOf pr + 1) := by decide

lemma pairList_take_nodup : ∀ pr ∈ pairList,
    (pairList.take (pairList.indexOf pr)).Nodup := by decide

lemma pairList_take_lt : ∀ pr₁ ∈ pairList, ∀ pr₂ ∈ pairList,
    pairList.indexOf pr₁ < pairList.indexOf pr₂ →
    pairList.take (pairList.indexOf pr₂)
      = pairList.take (pairList.indexOf pr₁)
        ++ pr₁ :: ((pairList.drop (pairList.indexOf pr₁ + 1)).take
            (pairList.indexOf pr₂ - pairList.indexOf pr₁ - 1)) := by decide

lemma pairList_indexOf_inj : ∀ pr₁ ∈ pairList, ∀ pr₂ ∈ pairList,
    pr₁ ≠ pr₂ → pairList.indexOf pr₁ ≠ pairList.indexOf pr₂ := by decide

lemma pairOpt_none_right (wo : Option Arr) : pairOpt wo none = none := by
  cases wo <;> rfl

lemma gamma1inv_eq (sus : susceptibility) (dt : ℚ) :
    gamma1inv sus dt = 1 / (1 + 2 * pi * sus.gamma * dt / 2) := by
  have h : g2pi sus * dt / 2 = 2 * pi * sus.gamma * dt / 2 := by
    unfold g2pi; ring
  unfold gamma1inv; rw [h]

lemma gamma1_eq (sus : susceptibility) (dt : ℚ) :
    gamma1 sus dt = 1 - 2 * pi * sus.gamma * dt / 2 := by
  unfold gamma1 g2pi; ring

lemma omega0dtsqr_eq (sus : susceptibility) (dt : ℚ) :
    omega0dtsqr sus dt = (2 * pi * sus.omega_0 * dt) ^ 2 := by
  unfold omega0dtsqr omega2pi; ring

lemma omega0dtsqr_denom_eq (sus : susceptibility) (dt : ℚ) :
    omega0dtsqr_denom sus dt
      = if sus.no_omega_0_denominator then 0
        else (2 * pi * sus.omega_0 * dt) ^ 2 := by
  unfold omega0dtsqr_denom; rw [omega0dtsqr_eq]

lemma update_P_eq_parts (sus : susceptibility) (P₀ W W_prev : FieldSet)
    (dt : ℚ) (gv : grid_volume) (pid : Arr) (pr : component × Bool) :
    update_P sus P₀ W W_prev dt gv pid
      = (pairList.drop (pairList.indexOf pr + 1)).foldl
          (update_pair sus W dt gv)
          (update_pair sus W dt gv
            ((pairList.take (pairList.indexOf pr)).foldl
              (update_pair sus W dt gv) { P := P₀, pid := pid, off := 0 }) pr) := by
  have hsplit := pairList_decomp pr (mem_pairList pr)
  unfold update_P
  conv_lhs => rw [hsplit]
  rw [List.foldl_append, List.foldl_cons]

/-- C3: `needs_P(c, W)` holds iff `c` is electric or magnetic and some
direction `d` has a non-trivial coupling entry `(c, d)` whose coupled
field array (the component with `c`'s axis re-pointed to `d`) is present
in `W`; in particular it is false when every direction is trivial or
every coupled field is absent. -/
theorem needs_P_characterization (sus : susceptibility) (c : component)
    (W : FieldSet) :
    needs_P sus c W = true ↔
      ((is_electric c = true ∨ is_magnetic c = true) ∧
        ∃ d : direction, sus.trivial_sigma c d = false ∧
          (W (direction_component c d) false).isSome = true) := by
  cases hE : is_electric c <;> cases hM : is_magnetic c <;>
    simp [needs_P, hE, hM, List.any_eq_true, Bool.and_eq_true,
      Bool.not_eq_true', mem_directions]

/-- C4: `needs_W_notowned(c, W)` holds iff some direction `d` other than
`c`'s own axis yields a component `cP` (re-pointing `c`'s axis to `d`)
with `needs_P(cP, W)` and a non-trivial coupling entry
`(cP, c`'s own axis`)`. -/
theorem needs_W_notowned_characterization (sus : susceptibility)
    (c : component) (W : FieldSet) :
    needs_W_notowned sus c W = true ↔
      ∃ d : direction, d ≠ component_direction c ∧
        needs_P sus (direction_component c d) W = true ∧
        sus.trivial_sigma (direction_component c d) (component_direction c)
          = false := by
  constructor
  · intro h
    rcases (List.any_eq_true).1 h with ⟨d, _, hd⟩
    by_cases hdc : d = component_direction c
    · rw [if_pos hdc] at hd
      exact absurd hd (by simp)
    · rw [if_neg hdc] at hd
      simp only [Bool.and_eq_true, Bool.not_eq_true'] at hd
      exact ⟨d, hdc, hd.1, hd.2⟩
  · rintro ⟨d, hdc, h1, h2⟩
    refine (List.any_eq_true).2 ⟨d, mem_directions d, ?_⟩
    rw [if_neg hdc]
    simp [h1, h2]

/-- C1: for an active component-copy pair (`P[c][cmp]`, `W[c][cmp]` and
the diagonal coupling array all non-null) with no non-trivial
off-diagonal coupling, one `update_P` call with timestep `dt` maps, at
every owned grid point `i`, the state pair
`(p_cur, p_prev) = (P[i], backing-store[i])` to
`p_new = (1/(1+Γ·dt/2)) · (p_cur·(2−a_denom) − (1−Γ·dt/2)·p_prev
+ (Ω·dt)²·σ_diag[i]·w[i])` and stores the old `p_cur` into the backing
store, where `Ω = 2π·f0`, `Γ = 2π·γ`, `a_denom` is `0` when
`no_omega_0_denominator` is set and `(Ω·dt)²` otherwise, and the
driving-term coefficient stays `(Ω·dt)²` in both cases.  The pair's
backing-store region starts at `pairOffset P gv (c, cmp)`. -/
theorem update_P_isotropic_point (sus : susceptibility) (P W W_prev : FieldSet)
    (dt : ℚ) (gv : grid_volume) (pid : Arr) (c : component) (cmp : Bool)
    (p w s : Arr)
    (hP : P c cmp = some p) (hW : W c cmp = some w)
    (hs : sus.sigma c (component_direction c) = some s)
    (h1 : sus.sigma c (cycle_direction (component_direction c) 1) = none)
    (h2 : sus.sigma c (cycle_direction (component_direction c) 2) = none)
    (hb : ownedBounds gv) (hnd : (gv.owned c).Nodup)
    (i : Int) (hi : i ∈ gv.owned c) :
    ((update_P sus P W W_prev dt gv pid).P c cmp).map (fun q => q i)
        = some ((1 / (1 + 2 * pi * sus.gamma * dt / 2)) *
            (p i * (2 - (if sus.no_omega_0_denominator then 0
                          else (2 * pi * sus.omega_0 * dt) ^ 2))
              - (1 - 2 * pi * sus.gamma * dt / 2)
                  * pid ((pairOffset P gv (c, cmp) : Int) + i)
              + (2 * pi * sus.omega_0 * dt) ^ 2 * (s i * w i)))
      ∧ (update_P sus P W W_prev dt gv pid).pid
          ((pairOffset P gv (c, cmp) : Int) + i) = p i := by
  have hmem := mem_pairList (c, cmp)
  have hnm := pairList_not_mem_parts (c, cmp) hmem
  have hbnd := pairList_take_nodup (c, cmp) hmem
  have hib := hb c i hi
  set upd := update_pair sus W dt gv with hupd
  set st0 : UpdState := { P := P, pid := pid, off := 0 } with hst0
  set stm := (pairList.take (pairList.indexOf (c, cmp))).foldl upd st0 with hstm
  have hPm : stm.P c cmp = some p := by
    rw [hstm, hupd, foldl_P_ne sus W dt gv _ st0 c cmp hnm.1]
    exact hP
  have hoffm : stm.off = pairOffset P gv (c, cmp) := by
    rw [hstm, hupd, foldl_off_acc sus W dt gv _ hbnd st0]
    simp [pairOffset, hst0]
  have hpidm : ∀ j : Int, (stm.off : Int) ≤ j → stm.pid j = pid j := by
    intro j hj
    rw [hstm, hupd, foldl_pid_high sus W dt gv hb _ st0 j (by rw [← hupd, ← hstm]; exact hj)]
  have hws1 : pairOpt
      (W (direction_component c (cycle_direction (component_direction c) 1)) cmp)
      (sus.sigma c (cycle_direction (component_direction c) 1)) = none := by
    rw [h1]; exact pairOpt_none_right _
  have hws2 : pairOpt
      (W (direction_component c (cycle_direction (component_direction c) 2)) cmp)
      (sus.sigma c (cycle_direction (component_direction c) 2)) = none := by
    rw [h2]; exact pairOpt_none_right _
  have hstep : upd stm (c, cmp) = active_update sus W dt gv stm c cmp p w s := by
    rw [hupd]
    simp only [update_pair, hPm, hW, hs]
  have hact : active_update sus W dt gv stm c cmp p w s
      = { P := fun c' cmp' => if c' = c ∧ cmp' = cmp
              then some ((gv.owned c).foldl
                (lorentzPointStep (gamma1inv sus dt) (gamma1 sus dt)
                  (omega0dtsqr_denom sus dt) (omega0dtsqr sus dt)
                  (fun j => s j * w j) stm.off) (p, stm.pid)).1
              else stm.P c' cmp',
          pid := ((gv.owned c).foldl
            (lorentzPointStep (gamma1inv sus dt) (gamma1 sus dt)
              (omega0dtsqr_denom sus dt) (omega0dtsqr sus dt)
              (fun j => s j * w j) stm.off) (p, stm.pid)).2,
          off := stm.off + gv.ntot } := by
    simp only [active_update, hws1, hws2, Option.isSome_none, Bool.and_false,
      Bool.false_and, Bool.not_false, if_neg, ite_false, Bool.false_eq_true]
  have hloop := pointLoop_mem (gamma1inv sus dt) (gamma1 sus dt)
    (omega0dtsqr_denom sus dt) (omega0dtsqr sus dt)
    (fun j => s j * w j) stm.off (gv.owned c) hnd (p, stm.pid) i hi
  have hsplit := update_P_eq_parts sus P W W_prev dt gv pid (c, cmp)
  rw [← hupd, ← hst0, ← hstm] at hsplit
  have hoff' : (upd stm (c, cmp)).off = stm.off + gv.ntot := by
    rw [hstep, hact]
  constructor
  · rw [hsplit, hupd, foldl_P_ne sus W dt gv _ _ c cmp hnm.2, ← hupd,
      hstep, hact]
    simp only [and_self, if_pos, ite_true, Option.map_some']
    rw [hloop.1]
    dsimp only
    have hpp : stm.pid ((stm.off : Int) + i) = pid ((stm.off : Int) + i) :=
      hpidm _ (by omega)
    rw [hpp, hoffm, gamma1inv_eq, gamma1_eq, omega0dtsqr_denom_eq,
      omega0dtsqr_eq]
  · rw [hsplit, hupd, foldl_pid_low sus W dt gv hb _ _ _ (by
      rw [← hupd, hoff', hoffm]
      push_cast
      omega), ← hupd, hstep, hact]
    simp only []
    rw [← hoffm]
    exact hloop.2

lemma countActive_append (P : FieldSet) :
    ∀ l₁ l₂ : List (component × Bool),
      countActive P (l₁ ++ l₂) = countActive P l₁ + countActive P l₂
  | [], _ => by simp [countActive_nil]
  | pr :: t, l₂ => by
      rw [List.cons_append, countActive_cons, countActive_cons,
        countActive_append P t l₂]
      omega

lemma pairOffset_separated (P : FieldSet) (gv : grid_volume)
    (pr₁ pr₂ : component × Bool) (h₁ : (P pr₁.1 pr₁.2).isSome = true)
    (hlt : pairList.indexOf pr₁ < pairList.indexOf pr₂) :
    pairOffset P gv pr₁ + gv.ntot ≤ pairOffset P gv pr₂ := by
  have htake := pairList_take_lt pr₁ (mem_pairList pr₁) pr₂ (mem_pairList pr₂) hlt
  unfold pairOffset
  rw [htake, countActive_append, countActive_cons, h₁]
  have hle : 1 + 0 ≤ 1 + countActive P
      ((pairList.drop (pairList.indexOf pr₁ + 1)).take
        (pairList.indexOf pr₂ - pairList.indexOf pr₁ - 1)) := by omega
  simp only [if_pos, ite_true]
  rw [Nat.mul_add]
  have := Nat.mul_le_mul_left gv.ntot (show 1 ≤ 1 + countActive P
      ((pairList.drop (pairList.indexOf pr₁ + 1)).take
        (pairList.indexOf pr₂ - pairList.indexOf pr₁ - 1)) by omega)
  omega

/-- C5: `num_internal_data` returns exactly (owned grid points) ×
(number of allocated component-copy pairs); one `update_P` call advances
its backing-store cursor by exactly that total (consuming `gv.ntot`
scalars per active pair, in the same canonical pair order); and the
`gv.ntot`-scalar regions of two distinct active pairs are disjoint. -/
theorem num_internal_data_layout (sus : susceptibility) (P W W_prev : FieldSet)
    (dt : ℚ) (gv : grid_volume) (pid : Arr) :
    num_internal_data P gv = gv.ntot * countActive P pairList
      ∧ (update_P sus P W W_prev dt gv pid).off = num_internal_data P gv
      ∧ (∀ pr₁ pr₂ : component × Bool, pr₁ ≠ pr₂ →
          (P pr₁.1 pr₁.2).isSome = true → (P pr₂.1 pr₂.2).isSome = true →
          ∀ n : Nat,
            ¬(pairOffset P gv pr₁ ≤ n ∧ n < pairOffset P gv pr₁ + gv.ntot
              ∧ pairOffset P gv pr₂ ≤ n ∧ n < pairOffset P gv pr₂ + gv.ntot)) := by
  refine ⟨num_internal_data_eq P gv, ?_, ?_⟩
  · rw [update_P, foldl_off_acc sus W dt gv pairList pairList_nodup,
      num_internal_data_eq]
    simp
  · intro pr₁ pr₂ hne h₁ h₂ n hcontra
    have hidx := pairList_indexOf_inj pr₁ (mem_pairList pr₁) pr₂
      (mem_pairList pr₂) hne
    rcases Nat.lt_or_ge (pairList.indexOf pr₁) (pairList.indexOf pr₂) with hlt | hge
    · have := pairOffset_separated P gv pr₁ pr₂ h₁ hlt
      omega
    · have hlt' : pairList.indexOf pr₂ < pairList.indexOf pr₁ := by omega
      have := pairOffset_separated P gv pr₂ pr₁ h₂ hlt'
      omega

/-- C7: for an active pair, the branch is selected once before the point
loop: with no available off-diagonal coupling the diagonal-only isotropic
branch runs; with exactly one available (in either candidate direction —
when only the second candidate is available the swap makes it the one
used) the 2-term branch runs with that coupling; with both, the 3-term
branch runs.  The own-axis stride and both off-diagonal strides carry the
factor `-1` for magnetic components and `+1` for electric ones. -/
theorem update_P_branch_selection (sus : susceptibility) (W : FieldSet)
    (dt : ℚ) (gv : grid_volume) (st : UpdState) (c : component) (cmp : Bool)
    (p w s : Arr) (hP : st.P c cmp = some p) (hW : W c cmp = some w)
    (hs : sus.sigma c (component_direction c) = some s)
    (hnd : (gv.owned c).Nodup) (i : Int) (hi : i ∈ gv.owned c) :
    (pairOpt
        (W (direction_component c (cycle_direction (component_direction c) 1)) cmp)
        (sus.sigma c (cycle_direction (component_direction c) 1)) = none →
      pairOpt
        (W (direction_component c (cycle_direction (component_direction c) 2)) cmp)
        (sus.sigma c (cycle_direction (component_direction c) 2)) = none →
      ((update_pair sus W dt gv st (c, cmp)).P c cmp).map (fun q => q i)
        = some (gamma1inv sus dt * (p i * (2 - omega0dtsqr_denom sus dt)
            - gamma1 sus dt * st.pid ((st.off : Int) + i)
            + omega0dtsqr sus dt * (s i * w i))))
    ∧ (∀ w1 s1 : Arr,
        W (direction_component c (cycle_direction (component_direction c) 1)) cmp
          = some w1 →
        sus.sigma c (cycle_direction (component_direction c) 1) = some s1 →
        pairOpt
          (W (direction_component c (cycle_direction (component_direction c) 2)) cmp)
          (sus.sigma c (cycle_direction (component_direction c) 2)) = none →
        ((update_pair sus W dt gv st (c, cmp)).P c cmp).map (fun q => q i)
          = some (gamma1inv sus dt * (p i * (2 - omega0dtsqr_denom sus dt)
              - gamma1 sus dt * st.pid ((st.off : Int) + i)
              + omega0dtsqr sus dt * (s i * w i
                + OFFDIAG s1 w1
                    (gv.stride (cycle_direction (component_direction c) 1)
                      * (if is_magnetic c then -1 else 1))
                    (gv.stride (component_direction c)
                      * (if is_magnetic c then -1 else 1)) i))))
    ∧ (∀ w2 s2 : Arr,
        pairOpt
          (W (direction_component c (cycle_direction (component_direction c) 1)) cmp)
          (sus.sigma c (cycle_direction (component_direction c) 1)) = none →
        W (direction_component c (cycle_direction (component_direction c) 2)) cmp
          = some w2 →
        sus.sigma c (cycle_direction (component_direction c) 2) = some s2 →
        ((update_pair sus W dt gv st (c, cmp)).P c cmp).map (fun q => q i)
          = some (gamma1inv sus dt * (p i * (2 - omega0dtsqr_denom sus dt)
              - gamma1 sus dt * st.pid ((st.off : Int) + i)
              + omega0dtsqr sus dt * (s i * w i
                + OFFDIAG s2 w2
                    (gv.stride (cycle_direction (component_direction c) 2)
                      * (if is_magnetic c then -1 else 1))
                    (gv.stride (component_direction c)
                      * (if is_magnetic c then -1 else 1)) i))))
    ∧ (∀ w1 s1 w2 s2 : Arr,
        W (direction_component c (cycle_direction (component_direction c) 1)) cmp
          = some w1 →
        sus.sigma c (cycle_direction (component_direction c) 1) = some s1 →
        W (direction_component c (cycle_direction (component_direction c) 2)) cmp
          = some w2 →
        sus.sigma c (cycle_direction (component_direction c) 2) = some s2 →
        ((update_pair sus W dt gv st (c, cmp)).P c cmp).map (fun q => q i)
          = some (gamma1inv sus dt * (p i * (2 - omega0dtsqr_denom sus dt)
              - gamma1 sus dt * st.pid ((st.off : Int) + i)
              + omega0dtsqr sus dt * (s i * w i
                + OFFDIAG s1 w1
                    (gv.stride (cycle_direction (component_direction c) 1)
                      * (if is_magnetic c then -1 else 1))
                    (gv.stride (component_direction c)
                      * (if is_magnetic c then -1 else 1)) i
                + OFFDIAG s2 w2
                    (gv.stride (cycle_direction (component_direction c) 2)
                      * (if is_magnetic c then -1 else 1))
                    (gv.stride (component_direction c)
                      * (if is_magnetic c then -1 else 1)) i)))) := by
  have hstep : update_pair sus W dt gv st (c, cmp)
      = active_update sus W dt gv st c cmp p w s := by
    simp only [update_pair, hP, hW, hs]
  refine ⟨?_, ?_, ?_, ?_⟩
  · intro h1 h2
    rw [hstep]
    simp only [active_update, h1, h2, Option.isSome_none, Bool.and_false,
      Bool.false_and, Bool.and_self, ite_false, Bool.false_eq_true, if_neg]
    simp only [and_self, if_pos, ite_true, Option.map_some']
    rw [(pointLoop_mem (gamma1inv sus dt) (gamma1 sus dt)
      (omega0dtsqr_denom sus dt) (omega0dtsqr sus dt)
      (fun j => s j * w j) st.off (gv.owned c) hnd (p, st.pid) i hi).1]
  · intro w1 s1 hw1 hs1 h2
    rw [hstep]
    simp only [active_update]
    rw [h2]
    simp only [hw1, hs1, pairOpt, Option.isSome_none, Option.isSome_some,
      Bool.not_true, Bool.and_false, ite_false, Bool.false_eq_true, if_neg]
    simp only [and_self, if_pos, ite_true, Option.map_some']
    rw [(pointLoop_mem (gamma1inv sus dt) (gamma1 sus dt)
      (omega0dtsqr_denom sus dt) (omega0dtsqr sus dt)
      (fun j => s j * w j + OFFDIAG s1 w1
        (gv.stride (cycle_direction (component_direction c) 1)
          * (if is_magnetic c then -1 else 1))
        (gv.stride (component_direction c)
          * (if is_magnetic c then -1 else 1)) j)
      st.off (gv.owned c) hnd (p, st.pid) i hi).1]
  · intro w2 s2 h1 hw2 hs2
    rw [hstep]
    simp only [active_update]
    rw [h1]
    simp only [hw2, hs2, pairOpt, Option.isSome_none, Option.isSome_some,
      Bool.not_false, Bool.and_true, Bool.true_and, Bool.and_self, ite_true]
    simp only [and_self, if_pos, ite_true, Option.map_some']
    rw [(pointLoop_mem (gamma1inv sus dt) (gamma1 sus dt)
      (omega0dtsqr_denom sus dt) (omega0dtsqr sus dt)
      (fun j => s j * w j + OFFDIAG s2 w2
        (gv.stride (cycle_direction (component_direction c) 2)
          * (if is_magnetic c then -1 else 1))
        (gv.stride (component_direction c)
          * (if is_magnetic c then -1 else 1)) j)
      st.off (gv.owned c) hnd (p, st.pid) i hi).1]
  · intro w1 s1 w2 s2 hw1 hs1 hw2 hs2
    rw [hstep]
    simp only [active_update]
    simp only [hw1, hs1, hw2, hs2, pairOpt, Option.isSome_some,
      Bool.not_true, Bool.and_false, ite_false, Bool.false_eq_true, if_neg]
    simp only [and_self, if_pos, ite_true, Option.map_some']
    rw [(pointLoop_mem (gamma1inv sus dt) (gamma1 sus dt)
      (omega0dtsqr_denom sus dt) (omega0dtsqr sus dt)
      (fun j => s j * w j + OFFDIAG s1 w1
        (gv.stride (cycle_direction (component_direction c) 1)
          * (if is_magnetic c then -1 else 1))
        (gv.stride (component_direction c)
          * (if is_magnetic c then -1 else 1)) j
        + OFFDIAG s2 w2
          (gv.stride (cycle_direction (component_direction c) 2)
            * (if is_magnetic c then -1 else 1))
          (gv.stride (component_direction c)
            * (if is_magnetic c then -1 else 1)) j)
      st.off (gv.owned c) hnd (p, st.pid) i hi).1]

lemma update_pair_sigma_none (sus : susceptibility) (W : FieldSet) (dt : ℚ)
    (gv : grid_volume) (st : UpdState) (pr : component × Bool)
    (hσ : ∀ c d, sus.sigma c d = none) :
    (update_pair sus W dt gv st pr).P = st.P
      ∧ (update_pair sus W dt gv st pr).pid = st.pid := by
  obtain ⟨c, cmp⟩ := pr
  simp only [update_pair, hσ]
  cases hP : st.P c cmp <;> cases hW : W c cmp <;> exact ⟨rfl, rfl⟩

lemma foldl_sigma_none (sus : susceptibility) (W : FieldSet) (dt : ℚ)
    (gv : grid_volume) (hσ : ∀ c d, sus.sigma c d = none) :
    ∀ (l : List (component × Bool)) (st : UpdState),
      (l.foldl (update_pair sus W dt gv) st).P = st.P
        ∧ (l.foldl (update_pair sus W dt gv) st).pid = st.pid
  | [], _ => ⟨rfl, rfl⟩
  | pr :: t, st => by
      rw [List.foldl_cons]
      rcases foldl_sigma_none sus W dt gv hσ t (update_pair sus W dt gv st pr)
        with ⟨h1, h2⟩
      rcases update_pair_sigma_none sus W dt gv st pr hσ with ⟨h3, h4⟩
      exact ⟨h1.trans h3, h2.trans h4⟩

lemma run_calls_trivial (sus : susceptibility) (gv : grid_volume)
    (hσ : ∀ c d, sus.sigma c d = none) :
    ∀ (calls : List (FieldSet × FieldSet × ℚ)) (P : FieldSet) (pid : Arr),
      run_calls sus gv calls P pid = (P, pid)
  | [], _, _ => rfl
  | call :: t, P, pid => by
      have hstep : ((update_P sus P call.1 call.2.1 call.2.2 gv pid).P,
          (update_P sus P call.1 call.2.1 call.2.2 gv pid).pid) = (P, pid) := by
        rcases foldl_sigma_none sus call.1 call.2.2 gv hσ pairList
          { P := P, pid := pid, off := 0 } with ⟨h1, h2⟩
        rw [update_P, Prod.mk.injEq]
        exact ⟨h1, h2⟩
      rw [run_calls, List.foldl_cons, hstep, ← run_calls]
      exact run_calls_trivial sus gv hσ t P pid

/-- C9: for a susceptibility whose coupling tensor is entirely absent,
starting from all-zero polarization arrays and an all-zero backing store,
any number of `update_P` calls with arbitrary fields and timesteps leaves
every polarization value and every backing-store value exactly zero. -/
theorem trivial_tensor_preserves_zero (sus : susceptibility)
    (gv : grid_volume) (calls : List (FieldSet × FieldSet × ℚ))
    (P : FieldSet) (pid : Arr)
    (hσ : ∀ c d, sus.sigma c d = none)
    (hP0 : ∀ c cmp q, P c cmp = some q → ∀ i : Int, q i = 0)
    (hpid0 : ∀ j : Int, pid j = 0) :
    (∀ c cmp q, (run_calls sus gv calls P pid).1 c cmp = some q →
        ∀ i : Int, q i = 0)
      ∧ ∀ j : Int, (run_calls sus gv calls P pid).2 j = 0 := by
  rw [run_calls_trivial sus gv hσ calls P pid]
  exact ⟨hP0, hpid0⟩

/-- C9 witness: the trivial-tensor theorem applied to a concrete
susceptibility, one concrete call, and concrete probe points. -/
theorem trivial_tensor_preserves_zero_witness :
    c9sus.sigma cEX direction.X = none
      ∧ c9P cEX false = some zeroArr
      ∧ (run_calls c9sus cgv [(witW, witW, 5)] c9P zeroArr).2 7 = 0 := by
  have hP0 : ∀ c cmp q, c9P c cmp = some q → ∀ i : Int, q i = 0 := by
    rintro ⟨k, a⟩ b q hq i
    cases k <;> cases a <;> cases b <;>
      simp only [c9P] at hq <;>
      first
        | (injection hq with hq; rw [← hq]; rfl)
        | exact absurd hq (by simp)
  exact ⟨rfl, rfl,
    (trivial_tensor_preserves_zero c9sus cgv [(witW, witW, 5)] c9P zeroArr
      (fun _ _ => rfl) hP0 (fun _ => rfl)).2 7⟩

/-- C8 (amended): whenever `P[c][cmp]` is allocated but the driving field
`W[c][cmp]` or the diagonal coupling array is null, `update_P`'s
iteration for that pair silently skips it — the polarization arrays and
the backing store are left untouched and only the cursor advances by
`gv.ntot` — rather than failing with an assertion (the chunk-uniform
allocation policy makes such locally-null pairs normal). -/
theorem update_pair_silent_skip (sus : susceptibility) (W : FieldSet)
    (dt : ℚ) (gv : grid_volume) (st : UpdState) (c : component) (cmp : Bool)
    (p : Arr) (hP : st.P c cmp = some p)
    (h : W c cmp = none ∨ sus.sigma c (component_direction c) = none) :
    update_pair sus W dt gv st (c, cmp) = { st with off := st.off + gv.ntot } := by
  simp only [update_pair, hP]
  rcases h with h | h <;> rw [h] <;>
    first
      | rfl
      | (cases hx : sus.sigma c (component_direction c) <;> rfl)
      | (cases hx : W c cmp <;> rfl)

/-- C8 witness: the silent-skip theorem applied to a concrete state with
an allocated pair whose driving field is absent. -/
theorem update_pair_silent_skip_witness :
    witP cEX false = some oneArr ∧ noW cEX false = none
      ∧ update_pair witSus noW 1 cgv { P := witP, pid := zeroArr, off := 0 }
          (cEX, false)
        = { P := witP, pid := zeroArr, off := 1 } :=
  ⟨rfl, rfl,
    update_pair_silent_skip witSus noW 1 cgv
      { P := witP, pid := zeroArr, off := 0 } cEX false oneArr rfl
      (Or.inl rfl)⟩

/-- C8 counterexample: at a concrete input with `P[cEX][0]` allocated and
the driving field null, a full `update_P` call completes normally — the
polarization array and the backing store are unchanged and the cursor
advanced — so the mismatch is silently tolerated, not stopped by an
assertion or abort. -/
theorem silent_skip_counterexample :
    (update_P witSus witP noW noW 1 cgv zeroArr).P cEX false = some oneArr
      ∧ (update_P witSus witP noW noW 1 cgv zeroArr).pid 0 = 0
      ∧ (update_P witSus witP noW noW 1 cgv zeroArr).off = 1 :=
  ⟨rfl, rfl, rfl⟩

/-- C2 (amended): in the 2-term and 3-term anisotropic branches, each
off-diagonal contribution added to the driving term at grid point `i`
equals, in exactly the code's grouping,
`0.25·((w_off[i]+w_off[i−stride_off])·σ_off[i]
+ (w_off[i+stride_own]+w_off[i+stride_own−stride_off])·σ_off[i+stride_own])`:
the 4-point average interpolates the off-diagonal field (averaged across
the off-diagonal stride, sampled at `i` and `i+stride_own`), each sample
pair weighted by the coupling at `i` respectively `i+stride_own`. -/
theorem update_P_offdiag_contribution (sus : susceptibility) (W : FieldSet)
    (dt : ℚ) (gv : grid_volume) (st : UpdState) (c : component) (cmp : Bool)
    (p w s : Arr) (hP : st.P c cmp = some p) (hW : W c cmp = some w)
    (hs : sus.sigma c (component_direction c) = some s)
    (hnd : (gv.owned c).Nodup) (i : Int) (hi : i ∈ gv.owned c) :
    (∀ w1 s1 : Arr,
        W (direction_component c (cycle_direction (component_direction c) 1)) cmp
          = some w1 →
        sus.sigma c (cycle_direction (component_direction c) 1) = some s1 →
        pairOpt
          (W (direction_component c (cycle_direction (component_direction c) 2)) cmp)
          (sus.sigma c (cycle_direction (component_direction c) 2)) = none →
        ((update_pair sus W dt gv st (c, cmp)).P c cmp).map (fun q => q i)
          = some (gamma1inv sus dt * (p i * (2 - omega0dtsqr_denom sus dt)
              - gamma1 sus dt * st.pid ((st.off : Int) + i)
              + omega0dtsqr sus dt * (s i * w i
                + 0.25 * ((w1 i + w1 (i
                      - gv.stride (cycle_direction (component_direction c) 1)
                        * (if is_magnetic c then -1 else 1))) * s1 i
                  + (w1 (i + gv.stride (component_direction c)
                        * (if is_magnetic c then -1 else 1))
                    + w1 ((i + gv.stride (component_direction c)
                        * (if is_magnetic c then -1 else 1))
                      - gv.stride (cycle_direction (component_direction c) 1)
                        * (if is_magnetic c then -1 else 1)))
                    * s1 (i + gv.stride (component_direction c)
                        * (if is_magnetic c then -1 else 1)))))))
    ∧ (∀ w1 s1 w2 s2 : Arr,
        W (direction_component c (cycle_direction (component_direction c) 1)) cmp
          = some w1 →
        sus.sigma c (cycle_direction (component_direction c) 1) = some s1 →
        W (direction_component c (cycle_direction (component_direction c) 2)) cmp
          = some w2 →
        sus.sigma c (cycle_direction (component_direction c) 2) = some s2 →
        ((update_pair sus W dt gv st (c, cmp)).P c cmp).map (fun q => q i)
          = some (gamma1inv sus dt * (p i * (2 - omega0dtsqr_denom sus dt)
              - gamma1 sus dt * st.pid ((st.off : Int) + i)
              + omega0dtsqr sus dt * (s i * w i
                + 0.25 * ((w1 i + w1 (i
                      - gv.stride (cycle_direction (component_direction c) 1)
                        * (if is_magnetic c then -1 else 1))) * s1 i
                  + (w1 (i + gv.stride (component_direction c)
                        * (if is_magnetic c then -1 else 1))
                    + w1 ((i + gv.stride (component_direction c)
                        * (if is_magnetic c then -1 else 1))
                      - gv.stride (cycle_direction (component_direction c) 1)
                        * (if is_magnetic c then -1 else 1)))
                    * s1 (i + gv.stride (component_direction c)
                        * (if is_magnetic c then -1 else 1)))
                + 0.25 * ((w2 i + w2 (i
                      - gv.stride (cycle_direction (component_direction c) 2)
                        * (if is_magnetic c then -1 else 1))) * s2 i
                  + (w2 (i + gv.stride (component_direction c)
                        * (if is_magnetic c then -1 else 1))
                    + w2 ((i + gv.stride (component_direction c)
                        * (if is_magnetic c then -1 else 1))
                      - gv.stride (cycle_direction (component_direction c) 2)
                        * (if is_magnetic c then -1 else 1)))
                    * s2 (i + gv.stride (component_direction c)
                        * (if is_magnetic c then -1 else 1))))))) := by
  have hstep : update_pair sus W dt gv st (c, cmp)
      = active_update sus W dt gv st c cmp p w s := by
    simp only [update_pair, hP, hW, hs]
  constructor
  · intro w1 s1 hw1 hs1 h2
    rw [hstep]
    simp only [active_update]
    rw [h2]
    simp only [hw1, hs1, pairOpt, Option.isSome_none, Option.isSome_some,
      Bool.not_true, Bool.and_false, ite_false, Bool.false_eq_true, if_neg]
    simp only [and_self, if_pos, ite_true, Option.map_some']
    rw [(pointLoop_mem (gamma1inv sus dt) (gamma1 sus dt)
      (omega0dtsqr_denom sus dt) (omega0dtsqr sus dt)
      (fun j => s j * w j + OFFDIAG s1 w1
        (gv.stride (cycle_direction (component_direction c) 1)
          * (if is_magnetic c then -1 else 1))
        (gv.stride (component_direction c)
          * (if is_magnetic c then -1 else 1)) j)
      st.off (gv.owned c) hnd (p, st.pid) i hi).1]
    simp only [OFFDIAG]
  · intro w1 s1 w2 s2 hw1 hs1 hw2 hs2
    rw [hstep]
    simp only [active_update]
    simp only [hw1, hs1, hw2, hs2, pairOpt, Option.isSome_some,
      Bool.not_true, Bool.and_false, ite_false, Bool.false_eq_true, if_neg]
    simp only [and_self, if_pos, ite_true, Option.map_some']
    rw [(pointLoop_mem (gamma1inv sus dt) (gamma1 sus dt)
      (omega0dtsqr_denom sus dt) (omega0dtsqr sus dt)
      (fun j => s j * w j + OFFDIAG s1 w1
        (gv.stride (cycle_direction (component_direction c) 1)
          * (if is_magnetic c then -1 else 1))
        (gv.stride (component_direction c)
          * (if is_magnetic c then -1 else 1)) j
        + OFFDIAG s2 w2
          (gv.stride (cycle_direction (component_direction c) 2)
            * (if is_magnetic c then -1 else 1))
          (gv.stride (component_direction c)
            * (if is_magnetic c then -1 else 1)) j)
      st.off (gv.owned c) hnd (p, st.pid) i hi).1]
    simp only [OFFDIAG]

/-- C2 witness (for the amended claim): the off-diagonal-contribution
theorem applied to a concrete 2-term-branch input. -/
theorem update_P_offdiag_contribution_witness :
    c2W (direction_component cEX (cycle_direction (component_direction cEX) 1))
        false = some c2w1
      ∧ c2sus.sigma cEX (cycle_direction (component_direction cEX) 1)
          = some oneArr
      ∧ ((update_pair c2sus c2W 1 cgv { P := c2P, pid := zeroArr, off := 0 }
            (cEX, false)).P cEX false).map (fun q => q 0) = some 1 := by
  have H := update_P_offdiag_contribution c2sus c2W 1 cgv
    { P := c2P, pid := zeroArr, off := 0 } cEX false zeroArr zeroArr zeroArr
    rfl rfl rfl (by decide) 0 (by decide)
  refine ⟨rfl, rfl, ?_⟩
  rw [H.1 c2w1 oneArr rfl rfl rfl]
  norm_num [gamma1inv, gamma1, g2pi, omega0dtsqr, omega0dtsqr_denom,
    omega2pi, c2sus, pi, oneArr, zeroArr, c2w1, cgv, component_direction,
    cycle_direction, next_direction, is_magnetic, cEX]

/-- C2 counterexample: at a concrete 2-term-branch input, the actual
polarization value produced by the update differs from the value the
claim's formula (σ averaged across the own-axis stride, field sampled
along the off-diagonal stride) predicts. -/
theorem offdiag_claim_counterexample :
    ((update_pair c2sus c2W 1 cgv { P := c2P, pid := zeroArr, off := 0 }
        (cEX, false)).P cEX false).map (fun q => q 0)
      ≠ some (gamma1inv c2sus 1 * (zeroArr 0 * (2 - omega0dtsqr_denom c2sus 1)
          - gamma1 c2sus 1 * zeroArr 0
          + omega0dtsqr c2sus 1 * (zeroArr 0 * zeroArr 0
            + offdiag_spec_formula oneArr c2w1 2 1 0))) := by
  have hval : ((update_pair c2sus c2W 1 cgv
        { P := c2P, pid := zeroArr, off := 0 } (cEX, false)).P cEX false).map
          (fun q => q 0)
      = some (gamma1inv c2sus 1 * (zeroArr 0 * (2 - omega0dtsqr_denom c2sus 1)
          - gamma1 c2sus 1 * zeroArr ((0 : Nat) + 0)
          + omega0dtsqr c2sus 1 * (zeroArr 0 * zeroArr 0
            + OFFDIAG oneArr c2w1 2 1 0))) := rfl
  rw [hval]
  have hlhs : gamma1inv c2sus 1 * (zeroArr 0 * (2 - omega0dtsqr_denom c2sus 1)
      - gamma1 c2sus 1 * zeroArr ((0 : Nat) + 0)
      + omega0dtsqr c2sus 1 * (zeroArr 0 * zeroArr 0
        + OFFDIAG oneArr c2w1 2 1 0)) = 1 := by
    norm_num [gamma1inv, gamma1, g2pi, omega0dtsqr, omega0dtsqr_denom,
      omega2pi, c2sus, pi, OFFDIAG, oneArr, zeroArr, c2w1]
  have hrhs : gamma1inv c2sus 1 * (zeroArr 0 * (2 - omega0dtsqr_denom c2sus 1)
      - gamma1 c2sus 1 * zeroArr 0
      + omega0dtsqr c2sus 1 * (zeroArr 0 * zeroArr 0
        + offdiag_spec_formula oneArr c2w1 2 1 0)) = 0 := by
    norm_num [gamma1inv, gamma1, g2pi, omega0dtsqr, omega0dtsqr_denom,
      omega2pi, c2sus, pi, offdiag_spec_formula, oneArr, zeroArr, c2w1]
  rw [hlhs, hrhs]
  simp

lemma cdList_nodup : cdList.Nodup := by decide

lemma mem_cdList : ∀ cd : component × direction, cd ∈ cdList := by
  rintro ⟨⟨k, a⟩, d⟩
  cases k <;> cases a <;> cases d <;> decide

lemma cdList_indexOf_inj : ∀ cd₁ ∈ cdList, ∀ cd₂ ∈ cdList, cd₁ ≠ cd₂ →
    cdList.indexOf cd₁ ≠ cdList.indexOf cd₂ := by decide

lemma cloneStore_frame (s : susceptibilityH) (h : heap) :
    ∀ (l : List (component × direction)) (st : Nat → Arr) (k : Nat),
      (∀ cd ∈ l, h.nextFree + cdList.indexOf cd ≠ k) →
      (l.foldl (fun st cd =>
        match s.sigmaPtr cd.1 cd.2 with
        | some ptr => Function.update st (h.nextFree + cdList.indexOf cd)
            (copyN (h.store ptr) s.ntot)
        | none => st) st) k = st k
  | [], _, _, _ => rfl
  | cd :: t, st, k, hk => by
      rw [List.foldl_cons, cloneStore_frame s h t _ k
        (fun cd' h' => hk cd' (List.mem_cons_of_mem _ h'))]
      cases hp : s.sigmaPtr cd.1 cd.2 with
      | none => rfl
      | some ptr =>
          exact Function.update_noteq
            (Ne.symm (hk cd (List.mem_cons_self _ _))) _ _

lemma cloneStore_at (s : susceptibilityH) (h : heap) :
    ∀ (l : List (component × direction)), l.Nodup →
      (∀ cd₁ ∈ l, ∀ cd₂ ∈ l, cd₁ ≠ cd₂ →
        cdList.indexOf cd₁ ≠ cdList.indexOf cd₂) →
      ∀ (st : Nat → Arr) (cd : component × direction) (ptr : Nat),
        cd ∈ l → s.sigmaPtr cd.1 cd.2 = some ptr →
        (l.foldl (fun st cd =>
          match s.sigmaPtr cd.1 cd.2 with
          | some ptr => Function.update st (h.nextFree + cdList.indexOf cd)
              (copyN (h.store ptr) s.ntot)
          | none => st) st) (h.nextFree + cdList.indexOf cd)
          = copyN (h.store ptr) s.ntot
  | [], _, _, _, _, _, hmem, _ => absurd hmem (List.not_mem_nil _)
  | cd' :: t, hnd, hinj, st, cd, ptr, hmem, hp => by
      have hndt : t.Nodup := (List.nodup_cons.1 hnd).2
      have hcdt : cd' ∉ t := (List.nodup_cons.1 hnd).1
      rw [List.foldl_cons]
      rcases List.mem_cons.1 hmem with he | ht
      · subst he
        rw [cloneStore_frame s h t _ _ (by
          intro cd'' h'' hc
          have hne : cd'' ≠ cd := fun he' => hcdt (he' ▸ h'')
          exact hinj cd'' (List.mem_cons_of_mem _ h'') cd
            (List.mem_cons_self _ _) hne (by omega))]
        rw [hp]
        exact Function.update_same _ _ _
      · exact cloneStore_at s h t hndt
          (fun a ha b hb => hinj a (List.mem_cons_of_mem _ ha) b
            (List.mem_cons_of_mem _ hb)) _ cd ptr ht hp

/-- C6: `clone` returns an object whose `id`, `ntot`, oscillator
parameters and triviality flags equal the original's and whose chain link
is empty; every absent coupling entry stays absent; every present entry
gets a fresh cell (at or above the heap's allocation frontier, hence
distinct from every original pointer) whose first `ntot` scalars equal
the original array's, and writing through any original pointer afterwards
leaves the clone's array unchanged. -/
theorem clone_deep_copy (s : susceptibilityH) (h : heap)
    (hvalid : ∀ c d ptr, s.sigmaPtr c d = some ptr → ptr < h.nextFree) :
    ((cloneH s h).1.id = s.id ∧ (cloneH s h).1.ntot = s.ntot
      ∧ (cloneH s h).1.omega_0 = s.omega_0 ∧ (cloneH s h).1.gamma = s.gamma
      ∧ (cloneH s h).1.no_omega_0_denominator = s.no_omega_0_denominator
      ∧ (cloneH s h).1.next = none
      ∧ ∀ c d, (cloneH s h).1.trivial_sigma c d = s.trivial_sigma c d)
    ∧ (∀ c d, s.sigmaPtr c d = none → (cloneH s h).1.sigmaPtr c d = none)
    ∧ (∀ c d ptr q, s.sigmaPtr c d = some ptr →
        (cloneH s h).1.sigmaPtr c d = some q →
        h.nextFree ≤ q
        ∧ (∀ j : Int, 0 ≤ j → j < (s.ntot : Int) →
            (cloneH s h).2.store q j = h.store ptr j)
        ∧ (∀ ptr' g, ptr' < h.nextFree →
            Function.update ((cloneH s h).2.store) ptr' g q
              = (cloneH s h).2.store q)) := by
  refine ⟨⟨rfl, rfl, rfl, rfl, rfl, rfl, fun c d => rfl⟩, ?_, ?_⟩
  · intro c d h0
    simp only [cloneH, h0]
  · intro c d ptr q hp hq
    simp only [cloneH, hp] at hq
    injection hq with hq
    subst hq
    refine ⟨Nat.le_add_right _ _, ?_, ?_⟩
    · intro j hj0 hjlt
      have hst := cloneStore_at s h cdList cdList_nodup cdList_indexOf_inj
        h.store (c, d) ptr (mem_cdList (c, d)) hp
      simp only [cloneH]
      rw [hst]
      simp [copyN, hj0, hjlt]
    · intro ptr' g hlt
      exact Function.update_noteq (by omega) _ _

/-- C6 witness: the deep-copy theorem applied to a concrete heap and a
concrete susceptibility with one coupling entry at cell 0 containing the
constant-5 array. -/
theorem clone_deep_copy_witness :
    s6.sigmaPtr cEX direction.X = some 0
      ∧ (cloneH s6 h6).1.next = none
      ∧ (cloneH s6 h6).1.id = 42
      ∧ (cloneH s6 h6).1.sigmaPtr cEX direction.X = some 1
      ∧ h6.nextFree ≤ 1
      ∧ (cloneH s6 h6).2.store 1 2 = 5
      ∧ Function.update ((cloneH s6 h6).2.store) 0 zeroArr 1 2
          = (cloneH s6 h6).2.store 1 2 := by
  have hvalid : ∀ c d ptr, s6.sigmaPtr c d = some ptr → ptr < h6.nextFree := by
    rintro ⟨k, a⟩ d ptr hp
    cases k <;> cases a <;> cases d <;> simp only [s6, h6] at hp ⊢ <;>
      first
        | (injection hp with hp; omega)
        | exact absurd hp (by simp)
  have H := clone_deep_copy s6 h6 hvalid
  have h3 := H.2.2 cEX direction.X 0 1 rfl rfl
  refine ⟨rfl, rfl, rfl, rfl, h3.1, ?_, ?_⟩
  · rw [h3.2.1 2 (by norm_num) (by norm_num [s6])]
    rfl
  · rw [h3.2.2 0 zeroArr (by norm_num [h6])]

/-- C1 witness: the isotropic point-update theorem applied to a concrete
single-point grid with unit polarization, unit field, unit diagonal
coupling and zero oscillator parameters. -/
theorem update_P_isotropic_point_witness :
    witP cEX false = some oneArr
      ∧ witSus.sigma cEX (component_direction cEX) = some oneArr
      ∧ witSus.sigma cEX (cycle_direction (component_direction cEX) 1) = none
      ∧ ((update_P witSus witP witW witW 1 cgv zeroArr).P cEX false).map
          (fun q => q 0) = some 2
      ∧ (update_P witSus witP witW witW 1 cgv zeroArr).pid 0 = 1 := by
  have hb : ownedBounds cgv := by
    intro c i hi
    simp only [cgv] at hi
    rw [List.mem_singleton] at hi
    subst hi
    exact ⟨le_refl _, by norm_num [cgv]⟩
  have h := update_P_isotropic_point witSus witP witW witW 1 cgv zeroArr
    cEX false oneArr oneArr oneArr rfl rfl rfl rfl rfl hb (by decide) 0
    (by decide)
  have hoff : pairOffset witP cgv (cEX, false) = 0 := by decide
  rw [hoff] at h
  refine ⟨rfl, rfl, rfl, ?_, ?_⟩
  · rw [h.1]
    norm_num [witSus, oneArr, zeroArr]
  · have h2 := h.2
    simpa [oneArr] using h2

/-- C5 witness: the layout theorem applied to a concrete 1-point grid
with both copies of `cEX` active. -/
theorem num_internal_data_layout_witness :
    num_internal_data wit5P cgv = 2
      ∧ (update_P witSus wit5P witW witW 1 cgv zeroArr).off = 2
      ∧ ¬(pairOffset wit5P cgv (cEX, false) ≤ 0
          ∧ 0 < pairOffset wit5P cgv (cEX, false) + cgv.ntot
          ∧ pairOffset wit5P cgv (cEX, true) ≤ 0
          ∧ 0 < pairOffset wit5P cgv (cEX, true) + cgv.ntot) := by
  have H := num_internal_data_layout witSus wit5P witW witW 1 cgv zeroArr
  refine ⟨by decide, ?_, ?_⟩
  · rw [H.2.1]
    decide
  · exact H.2.2 (cEX, false) (cEX, true) (by decide) (by decide) (by decide) 0

/-- C7 witness: the branch-selection theorem applied to a concrete input
where only the second off-diagonal candidate is available, so the swap
makes the 2-term branch use it. -/
theorem update_P_branch_selection_witness :
    wit7sus.sigma cEX (cycle_direction (component_direction cEX) 1) = none
      ∧ wit7W (direction_component cEX
          (cycle_direction (component_direction cEX) 2)) false = some c7w2
      ∧ ((update_pair wit7sus wit7W 1 cgv
            { P := witP, pid := zeroArr, off := 0 } (cEX, false)).P cEX
              false).map (fun q => q 0) = some 4 := by
  have H := update_P_branch_selection wit7sus wit7W 1 cgv
    { P := witP, pid := zeroArr, off := 0 } cEX false oneArr oneArr oneArr
    rfl rfl rfl (by decide) 0 (by decide)
  refine ⟨rfl, rfl, ?_⟩
  rw [H.2.2.1 c7w2 oneArr rfl rfl rfl]
  norm_num [gamma1inv, gamma1, g2pi, omega0dtsqr, omega0dtsqr_denom,
    omega2pi, wit7sus, pi, OFFDIAG, oneArr, zeroArr, c7w2, cgv,
    component_direction, cycle_direction, next_direction, is_magnetic, cEX]

/-- C10: the result of the Lorentzian `update_P` does not depend on the
previous-fields argument `W_prev`, which the kernel explicitly ignores:
two calls identical in all other inputs return identical polarization
arrays, identical backing stores, and identical cursor positions. -/
theorem update_P_ignores_W_prev (sus : susceptibility) (P W : FieldSet)
    (W_prev₁ W_prev₂ : FieldSet) (dt : ℚ) (gv : grid_volume) (pid : Arr) :
    update_P sus P W W_prev₁ dt gv pid = update_P sus P W W_prev₂ dt gv pid :=
  rfl

end meep
